import Mathlib

/-!
The Markdown document cache of mdserver and its request handlers.

A shallow embedding of `main.go` of `eleksir/mdserver`.

* Go `string` values are modelled by Lean `String`.  The only separator the
  program splits and joins on is the one-byte string `"\n"`; in UTF-8 that byte
  never occurs inside a multi-byte sequence, so splitting a character list on
  the character `'\n'` agrees with splitting the bytes on `0x0A`.
* `map[string]post` is an association list with distinct keys (`AList`).
* The operating system is a pair of functions (`os.Stat`, `ioutil.ReadFile`);
  the Markdown renderer `blackfriday.MarkdownCommon` is a function parameter.
* Every call that leaves `postArray.Get` (stat, file read, render, lock
  operations, reads and writes of the map) is recorded in an event list, so
  that "the file is not read" or "the write happens under the shared lock" are
  statements about the value `Get` returns.
* A Go run-time panic (index out of range) is the result `none`.
-/

namespace Mdserver

/-! ## Data model -/

/-- Go `type post struct { Title string; Body template.HTML; ModTime int64 }`. -/
structure post where
  Title : String
  Body : String
  ModTime : Int
  deriving DecidableEq

/-- The zero value `post{}`. -/
def post.zero : post := { Title := "", Body := "", ModTime := 0 }

/-- The field `Items map[string]post` of `postArray`. -/
abbrev ItemsMap := AList (fun _ : String => post)

/-- The part of `os.FileInfo` that `Get` looks at: `IsDir()` and
`ModTime().UnixNano()`. -/
structure FileInfo where
  IsDir : Bool
  ModTimeUnixNano : Int
  deriving DecidableEq

/-- A non-nil Go `error`.  `notExist` is what `os.IsNotExist` answers on it. -/
structure GoError where
  notExist : Bool
  msg : String
  deriving DecidableEq

/-- The operating system as seen by `Get`: `os.Stat` returns a `FileInfo` or an
error; `ioutil.ReadFile` returns the bytes it could read together with an error
that is `none` (nil) on success. -/
structure FileSystem where
  Stat : String → Except GoError FileInfo
  ReadFile : String → String × Option GoError

/-- The calls `postArray.Get` makes, in program order. -/
inductive Event where
  | Stat (md : String)
  | MapRead (md : String)
  | RLock
  | RUnlock
  | Lock
  | Unlock
  | ReadFile (md : String)
  | Render (input : String)
  | MapWrite (md : String) (p : post)
  deriving DecidableEq

/-- What one call of `postArray.Get` produces: the three returned values, the
map `Items` after the call and the calls made. -/
structure GetResult where
  post : post
  status : Nat
  err : Option GoError
  Items : ItemsMap
  trace : List Event

/-! ## `strings.Split`, `strings.Join` for the separator `"\n"` -/

/-- Splitting a character list at every occurrence of `sep`
(`strings.Split(s, sep)` for a one-byte separator): the pieces between the
separators, in order; `n` separators give `n + 1` pieces. -/
def splitChars (sep : Char) : List Char → List (List Char)
  | [] => [[]]
  | c :: cs =>
    if c = sep then [] :: splitChars sep cs
    else
      match splitChars sep cs with
      | [] => [[c]]
      | l :: ls => (c :: l) :: ls

/-- Go `strings.Split(s, "\n")`. -/
def strings.Split (s : String) : List String :=
  (splitChars '\n' s.data).map String.mk

/-- Go `strings.Join(elems, "\n")`. -/
def strings.Join (elems : List String) : String :=
  String.mk (List.intercalate ['\n'] (elems.map String.data))

/-- Go slice expression `lines[1:]`: panics (here `none`) when the slice is
empty. -/
def sliceFrom1 (lines : List String) : Option (List String) :=
  if 1 ≤ lines.length then some (lines.drop 1) else none

/-! ## `newPostArray` and `postArray.Get` -/

/-- Go `newPostArray`: the empty map. -/
def newPostArray : ItemsMap := ∅

/-- Go `func (p *postArray) Get(md string) (post, int, error)`.
`MarkdownCommon` is the renderer, `fs` the file system at the time of the call,
`Items` the map before the call. -/
def Get (MarkdownCommon : String → String) (fs : FileSystem) (Items : ItemsMap)
    (md : String) : Option GetResult :=
  match fs.Stat md with
  | .error err =>
    if err.notExist then
      some { post := post.zero, status := 404, err := some err, Items := Items,
             trace := [.Stat md] }
    else
      some { post := post.zero, status := 500, err := some err, Items := Items,
             trace := [.Stat md] }
  | .ok info =>
    if info.IsDir then
      some { post := post.zero, status := 404,
             err := some { notExist := false, msg := "dir" }, Items := Items,
             trace := [.Stat md] }
    else
      let val := Items.lookup md
      let stale : Bool :=
        match val with
        | none => true
        | some v => v.ModTime != info.ModTimeUnixNano
      if stale then
        let data := (fs.ReadFile md).1
        let lines := strings.Split data
        match lines[0]?, sliceFrom1 lines with
        | some title, some rest =>
          let body := MarkdownCommon (strings.Join rest)
          let entry : post := { Title := title, Body := body, ModTime := info.ModTimeUnixNano }
          let Items1 := Items.insert md entry
          some { post := (Items1.lookup md).getD post.zero, status := 200, err := none,
                 Items := Items1,
                 trace := [.Stat md, .MapRead md, .RLock, .ReadFile md, .Render (strings.Join rest),
                           .MapWrite md entry, .MapRead md, .RUnlock] }
        | _, _ => none
      else
        some { post := (Items.lookup md).getD post.zero, status := 200, err := none,
               Items := Items, trace := [.Stat md, .MapRead md, .MapRead md] }

/-! ## `path.Clean`, `path.Join` (Go standard library, package `path`) -/

/-- The inner loop of the `..` case of `path.Clean`, entered after the first
`out.w--` with `w` the decremented index:
`for out.w > dotdot && out.index(out.w) != '/' { out.w-- }`.
`out` is the buffer content before backtracking. -/
def path.backtrack (out : List Char) (dotdot : Nat) : Nat → Nat
  | 0 => 0
  | w + 1 =>
    if w + 1 > dotdot && out.getD (w + 1) '/' != '/' then path.backtrack out dotdot w
    else w + 1

/-- The main loop `for r < n { switch { ... } }` of `path.Clean`.  `rest` is
`path[r:]`, `out` is the content `buf[:w]` of the output buffer.  Each iteration
consumes at least one byte; the first argument bounds the number of iterations
and `none` means the bound was too small. -/
def path.cleanLoop (rooted : Bool) : Nat → List Char → List Char → Nat → Option (List Char)
  | _, [], out, _ => some out
  | 0, _ :: _, _, _ => none
  | fuel + 1, c :: cs, out, dotdot =>
    if c = '/' then
      -- empty path element
      path.cleanLoop rooted fuel cs out dotdot
    else if c = '.' ∧ (cs = [] ∨ cs.head? = some '/') then
      -- . element
      path.cleanLoop rooted fuel cs out dotdot
    else if c = '.' ∧ cs.head? = some '.' ∧ (cs.tail = [] ∨ cs.tail.head? = some '/') then
      -- .. element: remove to last /
      if out.length > dotdot then
        path.cleanLoop rooted fuel cs.tail
          (out.take (path.backtrack out dotdot (out.length - 1))) dotdot
      else if !rooted then
        let out1 := (if out.length > 0 then out ++ ['/'] else out) ++ ['.', '.']
        path.cleanLoop rooted fuel cs.tail out1 out1.length
      else
        path.cleanLoop rooted fuel cs.tail out dotdot
    else
      -- real path element: add slash if needed, copy element
      let out1 :=
        if (rooted && out.length != 1) || (!rooted && out.length != 0) then out ++ ['/']
        else out
      path.cleanLoop rooted fuel ((c :: cs).dropWhile (fun x => x != '/'))
        (out1 ++ (c :: cs).takeWhile (fun x => x != '/')) dotdot

/-- Go `path.Clean`.  The loop is run with as many iterations allowed as the
path has characters. -/
def path.Clean (p : String) : Option String :=
  if p = "" then some "."
  else
    let rooted : Bool := p.data.head? = some '/'
    let start : List Char × List Char × Nat :=
      if rooted then (p.data.tail, ['/'], 1) else (p.data, [], 0)
    (path.cleanLoop rooted p.data.length start.1 start.2.1 start.2.2).map
      (fun out => if out.length = 0 then "." else String.mk out)

/-- Go `path.Join(elem...)`: the non-empty elements joined by `/`, cleaned; the
empty string when every element is empty. -/
def path.Join (elem : List String) : Option String :=
  let buf := elem.foldl
    (fun buf e =>
      if buf ≠ "" ∨ e ≠ "" then (if buf ≠ "" then buf ++ "/" else buf) ++ e else buf) ""
  if (elem.map String.length).sum = 0 then some "" else path.Clean buf

/-! ## `postHandler`: the path handed to `posts.Get` -/

/-- The value of the variable `postMD` in `postHandler`, as a function of the
`:page` parameter: `p := path.Join("posts", page)`, then `p + ".md"` for a
non-empty page and `p + "/index.md"` for the empty one. -/
def postHandler.postMD (page : String) : Option String :=
  (path.Join ["posts", page]).map
    (fun p => if page ≠ "" then p ++ ".md" else p ++ "/index.md")

/-! ## `noDirListing` -/

/-- Go `strings.HasSuffix(s, suffix)`:
`len(s) >= len(suffix) && s[len(s)-len(suffix):] == suffix`. -/
def strings.HasSuffix (s suffix : String) : Bool :=
  decide (s.data.length ≥ suffix.data.length) &&
    decide (s.data.drop (s.data.length - suffix.data.length) = suffix.data)

/-- The part of `*http.Request` the wrapper looks at (`r.URL.Path`) together
with the rest of the request line. -/
structure Request where
  Method : String
  URLPath : String
  RawQuery : String
  deriving DecidableEq

/-- An `http.Handler`: `ServeHTTP(w, r)` as a transformer of the state `W` of
the response writer. -/
abbrev Handler (W : Type) := W → Request → W

/-- The calls the function returned by `noDirListing` makes. -/
inductive HandlerCall (W : Type) where
  | NotFound (w : W) (r : Request)
  | ServeHTTP (w : W) (r : Request)

/-- The outcome of one request served by `noDirListing(h)`. -/
structure Served (W : Type) where
  w : W
  calls : List (HandlerCall W)

/-- Go `noDirListing(h)`, applied to a response writer and a request.
`NotFound` is the standard library's `http.NotFound`, which replies with
status 404. -/
def noDirListing {W : Type} (NotFound : Handler W) (h : Handler W) (w : W) (r : Request) :
    Served W :=
  if strings.HasSuffix r.URLPath "/" || r.URLPath == "" then
    { w := NotFound w r, calls := [.NotFound w r] }
  else
    { w := h w r, calls := [.ServeHTTP w r] }

/-! ## Vocabulary of the specification -/

/-- The part of a file content before its first `"\n"` (all of it when there is
none): the title of the specification. -/
def titleOf (c : String) : String :=
  String.mk (c.data.takeWhile (fun x => x != '\n'))

/-- The part of a file content after its first `"\n"` (empty when there is
none): the raw body of the specification. -/
def rawBodyOf (c : String) : String :=
  String.mk ((c.data.dropWhile (fun x => x != '\n')).drop 1)

/-- The Document of the specification for content `c` and modification stamp
`s`: (title of `c`, render (body of `c`), `s`). -/
def documentOf (render : String → String) (c : String) (s : Int) : post :=
  { Title := titleOf c, Body := render (rawBodyOf c), ModTime := s }

/-- The path needs rendering: `Items` has no entry for it, or the entry's
`ModTime` differs from the stamp `s`. -/
def needsRender (Items : ItemsMap) (md : String) (s : Int) : Prop :=
  Items.lookup md = none ∨ ∃ v, Items.lookup md = some v ∧ v.ModTime ≠ s

/-- The path exists and is not a directory, with modification stamp `s`. -/
def isRegular (fs : FileSystem) (md : String) (s : Int) : Prop :=
  fs.Stat md = .ok { IsDir := false, ModTimeUnixNano := s }

/-- The events of a trace that read the file or call the renderer. -/
def ioEvents (t : List Event) : List Event :=
  t.filter (fun e => match e with
    | .ReadFile _ => true
    | .Render _ => true
    | _ => false)

/-- The texts handed to the Markdown renderer, in trace order. -/
def renderInputs (t : List Event) : List String :=
  t.filterMap (fun e => match e with
    | .Render x => some x
    | _ => none)

/-- The call failed with `status`: a non-nil error, the zero post, no file read
and no render call, and `Items` as before the call. -/
def failsWith (res : Option GetResult) (status : Nat) (Items : ItemsMap) : Prop :=
  ∃ r, res = some r ∧ r.status = status ∧ r.err ≠ none ∧ r.post = post.zero ∧
    ioEvents r.trace = [] ∧ r.Items = Items

/-- The path does not exist: `os.Stat` fails with an error that
`os.IsNotExist` recognises. -/
def notExists (fs : FileSystem) (md : String) : Prop :=
  ∃ err, fs.Stat md = .error err ∧ err.notExist = true

/-- The path is a directory. -/
def isDirectory (fs : FileSystem) (md : String) : Prop :=
  ∃ info, fs.Stat md = .ok info ∧ info.IsDir = true

/-- A sequence of `Get` calls, one per path, over the file system `fs`,
threading `Items` from call to call; the result is the final `Items`. -/
def runGets (render : String → String) (fs : FileSystem) :
    ItemsMap → List String → Option ItemsMap
  | Items, [] => some Items
  | Items, md :: rest =>
    match Get render fs Items md with
    | none => none
    | some r => runGets render fs r.Items rest

/-- The lock of the embedded `sync.RWMutex` that the calling goroutine holds. -/
inductive LockMode where
  | unlocked
  | shared
  | exclusive
  deriving DecidableEq

/-- The lock held after an event: `RLock` takes the shared lock, `Lock` the
exclusive one, `RUnlock` and `Unlock` release. -/
def lockAfter (m : LockMode) : Event → LockMode
  | .RLock => .shared
  | .Lock => .exclusive
  | .RUnlock => .unlocked
  | .Unlock => .unlocked
  | _ => m

/-- The lock held at each write of the map, in trace order. -/
def writeModes : LockMode → List Event → List LockMode
  | _, [] => []
  | m, .MapWrite _ _ :: rest => m :: writeModes m rest
  | m, e :: rest => writeModes (lockAfter m e) rest

/-- A URL path that is empty or ends in `"/"`. -/
def isDirURL (p : String) : Prop :=
  p = "" ∨ ∃ pre : String, p = pre ++ "/"

/-- A page whose `"/"`-separated elements are all non-empty and none of which
is `"."` or `".."`. -/
def cleanPage (page : String) : Prop :=
  ∀ e ∈ splitChars '/' page.data, e ≠ [] ∧ e ≠ ['.'] ∧ e ≠ ['.', '.']

/-- A path element that `path.Clean` copies: non-empty, without `/`, and
neither `.` nor `..`. -/
def copiedElem (e : List Char) : Prop :=
  e ≠ [] ∧ '/' ∉ e ∧ e ≠ ['.'] ∧ e ≠ ['.', '.']

/-- A file system for the examples: a regular file `posts/p1.md` (stamp 42,
content `"Hello\nWorld\nFoo"`), a regular file `posts/locked.md` (stamp 7) whose
read fails, the directory `posts`, a path `posts/denied.md` whose stat fails
with a permission error; nothing else exists. -/
def demoFS : FileSystem where
  Stat := fun p =>
    if p = "posts/p1.md" then .ok { IsDir := false, ModTimeUnixNano := 42 }
    else if p = "posts/locked.md" then .ok { IsDir := false, ModTimeUnixNano := 7 }
    else if p = "posts" then .ok { IsDir := true, ModTimeUnixNano := 1 }
    else if p = "posts/denied.md" then .error { notExist := false, msg := "permission denied" }
    else .error { notExist := true, msg := "no such file or directory" }
  ReadFile := fun p =>
    if p = "posts/p1.md" then ("Hello\nWorld\nFoo", none)
    else if p = "posts/locked.md" then ("", some { notExist := false, msg := "permission denied" })
    else ("", some { notExist := true, msg := "no such file or directory" })

/-- A renderer for the examples. -/
def demoRender (s : String) : String := "<p>" ++ s ++ "</p>"

/-! ## Lemmas on splitting -/

theorem splitChars_ne_nil (sep : Char) (l : List Char) : splitChars sep l ≠ [] := by
  cases l with
  | nil => simp [splitChars]
  | cons c cs =>
    unfold splitChars
    split
    · simp
    · split <;> simp

theorem splitChars_eq (sep : Char) (l : List Char) :
    splitChars sep l =
      l.takeWhile (fun x => x != sep) ::
        (match l.dropWhile (fun x => x != sep) with
         | [] => []
         | _ :: rest => splitChars sep rest) := by
  induction l with
  | nil => simp [splitChars]
  | cons c cs ih =>
    by_cases h : c = sep
    · subst h
      simp [splitChars, List.takeWhile, List.dropWhile]
    · have hb : (c != sep) = true := by simpa using h
      rw [splitChars, if_neg h, ih]
      simp [List.takeWhile, List.dropWhile, hb]

theorem intercalate_splitChars (sep : Char) (l : List Char) :
    List.intercalate [sep] (splitChars sep l) = l := by
  induction l with
  | nil => simp [splitChars, List.intercalate]
  | cons c cs ih =>
    by_cases h : c = sep
    · subst h
      rw [splitChars, if_pos rfl]
      have hne := splitChars_ne_nil c cs
      cases hs : splitChars c cs with
      | nil => exact absurd hs hne
      | cons a as =>
        rw [hs] at ih
        simp only [List.intercalate, List.intersperse, List.flatten] at ih ⊢
        simpa using ih
    · rw [splitChars, if_neg h]
      have hne := splitChars_ne_nil sep cs
      cases hs : splitChars sep cs with
      | nil => exact absurd hs hne
      | cons a as =>
        rw [hs] at ih
        cases as with
        | nil =>
          simp only [List.intercalate, List.intersperse, List.flatten] at ih ⊢
          simpa using ih
        | cons b bs =>
          simp only [List.intercalate, List.intersperse, List.flatten] at ih ⊢
          simpa using ih

theorem Split_head (c : String) : (strings.Split c)[0]? = some (titleOf c) := by
  unfold strings.Split titleOf
  rw [splitChars_eq]
  simp

theorem Split_slice (c : String) :
    sliceFrom1 (strings.Split c) = some ((strings.Split c).drop 1) := by
  unfold sliceFrom1 strings.Split
  rw [splitChars_eq]
  simp

theorem Join_Split_tail (c : String) :
    strings.Join ((strings.Split c).drop 1) = rawBodyOf c := by
  unfold strings.Join strings.Split rawBodyOf
  rw [splitChars_eq]
  cases h : c.data.dropWhile (fun x => x != '\n') with
  | nil => simp [List.intercalate]
  | cons a rest =>
    have ha : a = '\n' := by
      have := List.head_dropWhile_not (fun x => x != '\n') c.data (by rw [h]; simp)
      simpa [h] using this
    subst ha
    have := intercalate_splitChars '\n' rest
    simp only [List.map_cons, List.drop_succ_cons, List.drop_zero, List.map_map]
    have hid : (String.data ∘ String.mk) = id := by funext x; rfl
    rw [hid, List.map_id, this]

/-! ## Lemmas on `Get` -/

/-- The render branch of `Get`, in closed form. -/
theorem Get_render_eq (render : String → String) (fs : FileSystem) (Items : ItemsMap)
    (md : String) (s : Int) (hreg : isRegular fs md s) (hneed : needsRender Items md s) :
    Get render fs Items md =
      some { post := documentOf render (fs.ReadFile md).1 s, status := 200, err := none,
             Items := Items.insert md (documentOf render (fs.ReadFile md).1 s),
             trace := [.Stat md, .MapRead md, .RLock, .ReadFile md,
                       .Render (rawBodyOf (fs.ReadFile md).1),
                       .MapWrite md (documentOf render (fs.ReadFile md).1 s),
                       .MapRead md, .RUnlock] } := by
  have hstale : (match Items.lookup md with
      | none => true
      | some v => v.ModTime != s) = true := by
    rcases hneed with h | ⟨v, h, hv⟩
    · rw [h]
    · rw [h]; simpa using hv
  unfold isRegular at hreg
  unfold Get
  rw [hreg]
  simp only [Bool.false_eq_true, if_false, hstale, if_true, Split_head, Split_slice,
    Join_Split_tail, AList.lookup_insert, Option.getD_some]
  rfl

/-- The cache-hit branch of `Get`, in closed form. -/
theorem Get_hit_eq (render : String → String) (fs : FileSystem) (Items : ItemsMap)
    (md : String) (s : Int) (v : post) (hreg : isRegular fs md s)
    (hv : Items.lookup md = some v) (hs : v.ModTime = s) :
    Get render fs Items md =
      some { post := v, status := 200, err := none, Items := Items,
             trace := [.Stat md, .MapRead md, .MapRead md] } := by
  unfold isRegular at hreg
  unfold Get
  rw [hreg]
  simp [hv, hs]

/-- The function `Get` returns for every input: the render branch never panics. -/
theorem Get_isSome (render : String → String) (fs : FileSystem) (Items : ItemsMap)
    (md : String) : (Get render fs Items md).isSome = true := by
  unfold Get
  split
  · split <;> rfl
  · split
    · rfl
    · simp only [Split_head, Split_slice]
      split <;> rfl

/-- Stat outcomes other than "exists and is not a directory" make `Get` fail
and leave `Items` alone. -/
theorem Get_of_not_regular (render : String → String) (fs : FileSystem)
    (Items : ItemsMap) (md : String) (h : ∀ s, ¬ isRegular fs md s) :
    ∃ r, Get render fs Items md = some r ∧ r.err ≠ none ∧ r.Items = Items := by
  unfold Get
  cases hs : fs.Stat md with
  | error err =>
    by_cases hn : err.notExist = true
    · simp [hn]
    · simp [hn]
  | ok info =>
    cases hd : info.IsDir with
    | true => simp [hd]
    | false =>
      exact absurd (show isRegular fs md info.ModTimeUnixNano by
        unfold isRegular; rw [hs, ← hd]) (h _)

/-- After a call of `Get`, `Items` is as before or has one entry more or
replaced, under a path that exists and is not a directory. -/
theorem Get_Items_cases (render : String → String) (fs : FileSystem) (Items : ItemsMap)
    (md : String) :
    ∃ r, Get render fs Items md = some r ∧
      (r.Items = Items ∨ ∃ s doc, isRegular fs md s ∧ r.Items = Items.insert md doc) := by
  by_cases hreg : ∃ s, isRegular fs md s
  · obtain ⟨s, hreg⟩ := hreg
    by_cases hneed : needsRender Items md s
    · exact ⟨_, Get_render_eq render fs Items md s hreg hneed, Or.inr ⟨s, _, hreg, rfl⟩⟩
    · cases hl : Items.lookup md with
      | none => exact absurd (Or.inl hl) hneed
      | some v =>
        have hs : v.ModTime = s := by
          by_contra hne
          exact hneed (Or.inr ⟨v, hl, hne⟩)
        exact ⟨_, Get_hit_eq render fs Items md s v hreg hl hs, Or.inl rfl⟩
  · obtain ⟨r, hr, _, hi⟩ :=
      Get_of_not_regular render fs Items md (fun s hs => hreg ⟨s, hs⟩)
    exact ⟨r, hr, Or.inl hi⟩

/-- Sequences of `Get` calls keep the property that every key of `Items`
exists and is not a directory. -/
theorem runGets_invariant (render : String → String) (fs : FileSystem) (paths : List String) :
    ∀ Items : ItemsMap, (∀ k ∈ Items.keys, ∃ s, isRegular fs k s) →
      ∃ Items1, runGets render fs Items paths = some Items1 ∧
        ∀ k ∈ Items1.keys, ∃ s, isRegular fs k s := by
  induction paths with
  | nil =>
    intro Items hinv
    exact ⟨Items, rfl, hinv⟩
  | cons md rest ih =>
    intro Items hinv
    obtain ⟨r, hr, hcase⟩ := Get_Items_cases render fs Items md
    have hinv1 : ∀ k ∈ r.Items.keys, ∃ s, isRegular fs k s := by
      rcases hcase with h | ⟨s, doc, hreg, h⟩
      · rw [h]; exact hinv
      · rw [h]
        intro k hk
        rcases (AList.mem_insert _).1 (AList.mem_keys.2 hk) with hk1 | hk1
        · exact ⟨s, hk1 ▸ hreg⟩
        · exact hinv k (AList.mem_keys.1 hk1)
    obtain ⟨Items1, h1, h2⟩ := ih r.Items hinv1
    refine ⟨Items1, ?_, h2⟩
    simp only [runGets, hr]
    exact h1

theorem titleOf_no_newline (c : String) : '\n' ∉ (titleOf c).data := by
  intro h
  have := List.mem_takeWhile_imp h
  simp at this

theorem title_body_of_no_newline (c : String) (h : '\n' ∉ c.data) :
    titleOf c = c ∧ rawBodyOf c = "" := by
  have hall : ∀ x ∈ c.data, (x != '\n') = true := by
    intro x hx
    have : x ≠ '\n' := fun e => h (e ▸ hx)
    simpa using this
  constructor
  · unfold titleOf
    rw [List.takeWhile_eq_self_iff.2 hall]
  · unfold rawBodyOf
    rw [List.dropWhile_eq_nil_iff.2 hall]
    rfl

theorem title_body_of_newline (c : String) (h : '\n' ∈ c.data) :
    titleOf c ++ "\n" ++ rawBodyOf c = c := by
  have hcat := List.takeWhile_append_dropWhile (fun x => x != '\n') c.data
  cases hd : c.data.dropWhile (fun x => x != '\n') with
  | nil =>
    have := List.dropWhile_eq_nil_iff.1 hd '\n' h
    simp at this
  | cons a rest =>
    have ha : a = '\n' := by
      have := List.head_dropWhile_not (fun x => x != '\n') c.data (by rw [hd]; simp)
      simpa [hd] using this
    subst ha
    apply String.ext
    simp only [String.data_append, titleOf, rawBodyOf, hd, List.drop_succ_cons, List.drop_zero]
    rw [hd] at hcat
    simpa using hcat

/-! ## Lemmas on `path.Clean` -/

theorem splitChars_no_sep (sep : Char) (l : List Char) :
    ∀ e ∈ splitChars sep l, sep ∉ e := by
  induction l with
  | nil => simp [splitChars]
  | cons c cs ih =>
    by_cases h : c = sep
    · subst h
      rw [splitChars, if_pos rfl]
      intro e he
      rcases List.mem_cons.1 he with h1 | h1
      · subst h1; simp
      · exact ih e h1
    · rw [splitChars, if_neg h]
      have hne := splitChars_ne_nil sep cs
      cases hs : splitChars sep cs with
      | nil => exact absurd hs hne
      | cons a as =>
        rw [hs] at ih
        intro e he
        rcases List.mem_cons.1 he with h1 | h1
        · subst h1
          intro hmem
          rcases List.mem_cons.1 hmem with h2 | h2
          · exact h h2.symm
          · exact ih a (List.mem_cons_self _ _) h2
        · exact ih e (List.mem_cons_of_mem _ h1)

/-- One iteration of the loop of `path.Clean` on a copied element followed by
the end of the path or by a `/`. -/
theorem cleanLoop_copy (e tl out : List Char) (dd fuel : Nat) (he : copiedElem e)
    (htl : tl = [] ∨ ∃ rest, tl = '/' :: rest) :
    path.cleanLoop false (fuel + 1) (e ++ tl) out dd
      = path.cleanLoop false fuel tl
          ((if out.length != 0 then out ++ ['/'] else out) ++ e) dd := by
  obtain ⟨hne, hslash, hdot, hdotdot⟩ := he
  have hall : ∀ a ∈ e, (a != '/') = true := by
    intro a ha
    have : a ≠ '/' := fun h => hslash (h ▸ ha)
    simpa using this
  have htake : (e ++ tl).takeWhile (fun x => x != '/') = e := by
    rw [List.takeWhile_append_of_pos hall]
    rcases htl with h | ⟨rest, h⟩ <;> subst h <;> simp
  have hdrop : (e ++ tl).dropWhile (fun x => x != '/') = tl := by
    rw [List.dropWhile_append_of_pos hall]
    rcases htl with h | ⟨rest, h⟩ <;> subst h <;> simp
  cases e with
  | nil => exact absurd rfl hne
  | cons c t =>
    have hc : c ≠ '/' := fun h => hslash (h ▸ List.mem_cons_self _ _)
    have h2 : ¬ (c = '.' ∧ (t ++ tl = [] ∨ (t ++ tl).head? = some '/')) := by
      rintro ⟨rfl, h⟩
      cases t with
      | nil => exact hdot rfl
      | cons t0 t1 =>
        rcases h with h | h
        · simp at h
        · simp at h
          exact hslash (h ▸ List.mem_cons_of_mem _ (List.mem_cons_self _ _))
    have h3 : ¬ (c = '.' ∧ (t ++ tl).head? = some '.' ∧
        ((t ++ tl).tail = [] ∨ (t ++ tl).tail.head? = some '/')) := by
      rintro ⟨rfl, h, h'⟩
      cases t with
      | nil => exact hdot rfl
      | cons t0 t1 =>
        simp at h
        subst h
        cases t1 with
        | nil => exact hdotdot rfl
        | cons t2 t3 =>
          rcases h' with h' | h'
          · simp at h'
          · simp at h'
            exact hslash (h' ▸ List.mem_cons_of_mem _ (List.mem_cons_of_mem _ (List.mem_cons_self _ _)))
    have hstep : path.cleanLoop false (fuel + 1) (c :: (t ++ tl)) out dd
        = path.cleanLoop false fuel ((c :: (t ++ tl)).dropWhile (fun x => x != '/'))
            ((if (false && out.length != 1) || (!false && out.length != 0) then out ++ ['/']
              else out) ++ (c :: (t ++ tl)).takeWhile (fun x => x != '/')) dd := by
      rw [path.cleanLoop, if_neg hc, if_neg h2, if_neg h3]
    rw [List.cons_append, hstep, ← List.cons_append, htake, hdrop]
    simp

theorem intercalate_cons_cons (a b : List Char) (l : List (List Char)) :
    List.intercalate ['/'] (a :: b :: l) = a ++ '/' :: List.intercalate ['/'] (b :: l) := by
  simp [List.intercalate, List.intersperse]

/-- The loop of `path.Clean` copies a run of copied elements unchanged. -/
theorem cleanLoop_elems (es : List (List Char)) :
    es ≠ [] → (∀ e ∈ es, copiedElem e) → ∀ (out : List Char) (dd fuel : Nat), out ≠ [] →
      (List.intercalate ['/'] es).length ≤ fuel →
      path.cleanLoop false fuel (List.intercalate ['/'] es) out dd
        = some (out ++ '/' :: List.intercalate ['/'] es) := by
  induction es with
  | nil => intro h; exact absurd rfl h
  | cons e rest ih =>
    intro _ hall out dd fuel hout hfuel
    have he : copiedElem e := hall e (List.mem_cons_self _ _)
    have hepos : 1 ≤ e.length := by
      cases e with
      | nil => exact absurd rfl he.1
      | cons _ _ => simp
    have hlen : out.length ≠ 0 := fun h => hout (List.length_eq_zero.1 h)
    cases rest with
    | nil =>
      have hi : List.intercalate ['/'] [e] = e := by simp [List.intercalate, List.intersperse]
      rw [hi] at hfuel ⊢
      obtain ⟨f, rfl⟩ : ∃ f, fuel = f + 1 := ⟨fuel - 1, by omega⟩
      have := cleanLoop_copy e [] out dd f he (Or.inl rfl)
      rw [List.append_nil] at this
      rw [this]
      simp [path.cleanLoop, hlen]
    | cons e1 rest1 =>
      rw [intercalate_cons_cons] at hfuel ⊢
      simp only [List.length_append, List.length_cons] at hfuel
      obtain ⟨f, rfl⟩ : ∃ f, fuel = f + 2 := ⟨fuel - 2, by omega⟩
      rw [cleanLoop_copy e _ out dd (f + 1) he (Or.inr ⟨_, rfl⟩)]
      have hskip : ∀ (r o : List Char), path.cleanLoop false (f + 1) ('/' :: r) o dd
          = path.cleanLoop false f r o dd := by
        intro r o
        rw [path.cleanLoop, if_pos rfl]
      rw [hskip]
      have := ih (by simp) (fun x hx => hall x (List.mem_cons_of_mem _ hx))
        ((if out.length != 0 then out ++ ['/'] else out) ++ e) dd f
        (fun h => he.1 (List.append_eq_nil.1 h).2) (by omega)
      rw [this]
      simp [hlen]

/-- On a clean page, `path.Clean` returns `"posts/" ++ page` as it is. -/
theorem Clean_posts_page (page : String) (h : cleanPage page) :
    path.Clean ("posts/" ++ page) = some ("posts/" ++ page) := by
  have hes : ∀ e ∈ splitChars '/' page.data, copiedElem e := by
    intro e he
    obtain ⟨h1, h2, h3⟩ := h e he
    exact ⟨h1, splitChars_no_sep '/' page.data e he, h2, h3⟩
  have hrt := intercalate_splitChars '/' page.data
  have hloop := cleanLoop_elems (splitChars '/' page.data) (splitChars_ne_nil _ _) hes
    ['p', 'o', 's', 't', 's'] 0 (page.data.length + 4) (by simp) (by rw [hrt]; omega)
  rw [hrt] at hloop
  have hfirst : path.cleanLoop false (page.data.length + 5 + 1)
      ('p' :: 'o' :: 's' :: 't' :: 's' :: '/' :: page.data) [] 0
      = path.cleanLoop false (page.data.length + 5) ('/' :: page.data)
          ['p', 'o', 's', 't', 's'] 0 :=
    cleanLoop_copy ['p', 'o', 's', 't', 's'] ('/' :: page.data) [] 0
      (page.data.length + 5) (by unfold copiedElem; decide) (Or.inr ⟨_, rfl⟩)
  have hskip : path.cleanLoop false (page.data.length + 5) ('/' :: page.data)
      ['p', 'o', 's', 't', 's'] 0
      = path.cleanLoop false (page.data.length + 4) page.data ['p', 'o', 's', 't', 's'] 0 := by
    rw [path.cleanLoop, if_pos rfl]
  have hdata : ("posts/" ++ page).data = ['p', 'o', 's', 't', 's'] ++ '/' :: page.data := by
    rw [String.data_append]; rfl
  have hne : ("posts/" ++ page) ≠ "" := by
    intro he
    have := congrArg String.data he
    rw [hdata] at this
    simp at this
  unfold path.Clean
  rw [if_neg hne, hdata]
  simp only [List.cons_append, List.nil_append, List.head?_cons, List.length_cons]
  have hroot : (decide (some 'p' = some '/')) = false := by decide
  simp only [hroot, Bool.false_eq_true, if_false]
  have h6 : page.data.length + 1 + 1 + 1 + 1 + 1 + 1 = (page.data.length + 5) + 1 := by omega
  rw [h6]
  rw [hfirst, hskip, hloop]
  simp only [Option.map_some', List.length_append, List.length_cons]
  rw [if_neg (by omega)]
  congr 1

/-- The path `postHandler` computes for a clean page. -/
theorem postMD_of_cleanPage (page : String) (h : cleanPage page) :
    postHandler.postMD page = some ("posts/" ++ page ++ ".md") := by
  have hne : page ≠ "" := by
    intro he
    subst he
    have := h [] (by decide)
    exact this.1 rfl
  have hjoin : path.Join ["posts", page] = path.Clean ("posts/" ++ page) := by
    unfold path.Join
    have hsum : (["posts", page].map String.length).sum ≠ 0 := by
      have h5 : "posts".length = 5 := rfl
      simp only [List.map, List.sum_cons, List.sum_nil, h5]
      omega
    rw [if_neg hsum]
    congr 1
  unfold postHandler.postMD
  rw [hjoin, Clean_posts_page page h]
  simp [hne]

/-! ## Lemmas on `strings.HasSuffix` -/

theorem HasSuffix_slash (s : String) :
    strings.HasSuffix s "/" = true ↔ ∃ pre : String, s = pre ++ "/" := by
  unfold strings.HasSuffix
  have hd : ("/" : String).data = ['/'] := rfl
  rw [hd]
  simp only [List.length_cons, List.length_nil, Bool.and_eq_true, decide_eq_true_eq]
  constructor
  · rintro ⟨hlen, hdrop⟩
    refine ⟨String.mk (s.data.take (s.data.length - 1)), String.ext ?_⟩
    rw [String.data_append, hd]
    have := List.take_append_drop (s.data.length - 1) s.data
    rw [hdrop] at this
    exact this.symm
  · rintro ⟨pre, rfl⟩
    rw [String.data_append, hd]
    simp

/-! ## The claims -/

/-- C1: `postArray.Get` classifies the outcome of stat: a path that does not
exist gives status 404, a directory gives status 404, any other stat error
gives status 500; each time with a non-nil error and the zero post, without
reading or rendering the file (and with `Items` untouched). -/
theorem Get_stat_classification (render : String → String) (fs : FileSystem)
    (Items : ItemsMap) (md : String) :
    (∀ err, fs.Stat md = .error err → err.notExist = true →
        failsWith (Get render fs Items md) 404 Items) ∧
    (∀ info, fs.Stat md = .ok info → info.IsDir = true →
        failsWith (Get render fs Items md) 404 Items) ∧
    (∀ err, fs.Stat md = .error err → err.notExist = false →
        failsWith (Get render fs Items md) 500 Items) := by
  refine ⟨?_, ?_, ?_⟩
  · intro err hs hn
    unfold failsWith Get
    rw [hs]
    simp [hn, ioEvents]
  · intro info hs hd
    unfold failsWith Get
    rw [hs]
    simp [hd, ioEvents]
  · intro err hs hn
    unfold failsWith Get
    rw [hs]
    simp [hn, ioEvents]

/-- C1 at the example file system: a missing path, the directory `posts` and a
path whose stat is denied. -/
theorem Get_stat_classification_witness :
    failsWith (Get demoRender demoFS newPostArray "posts/nope.md") 404 newPostArray ∧
    failsWith (Get demoRender demoFS newPostArray "posts") 404 newPostArray ∧
    failsWith (Get demoRender demoFS newPostArray "posts/denied.md") 500 newPostArray :=
  ⟨(Get_stat_classification demoRender demoFS newPostArray "posts/nope.md").1 _ rfl rfl,
   (Get_stat_classification demoRender demoFS newPostArray "posts").2.1 _ rfl rfl,
   (Get_stat_classification demoRender demoFS newPostArray "posts/denied.md").2.2 _ rfl rfl⟩

/-- C2 (the code at the failing input): `posts/locked.md` exists, is not a
directory and is not cached, and reading it fails.  `Get` discards the read
error: it returns status 200 with a nil error and stores a Document with the
empty title, the rendering of the empty string and the file's stamp under the
path, instead of failing with status 500 and leaving `Items` alone. -/
theorem Get_read_failure_is_cached (render : String → String) :
    (demoFS.ReadFile "posts/locked.md").2 ≠ none ∧
    ∃ r, Get render demoFS newPostArray "posts/locked.md" = some r ∧
      r.status = 200 ∧ r.err = none ∧
      AList.lookup "posts/locked.md" newPostArray = none ∧
      r.Items.lookup "posts/locked.md"
        = some { Title := "", Body := render "", ModTime := 7 } := by
  refine ⟨by decide, ?_⟩
  have h := Get_render_eq render demoFS newPostArray "posts/locked.md" 7 rfl (Or.inl rfl)
  refine ⟨_, h, rfl, rfl, rfl, ?_⟩
  simp only [AList.lookup_insert]
  rfl

/-- C3: when the path exists, is not a directory and `Items` holds an entry
for it whose `ModTime` equals the file's current stamp, `Get` returns exactly
that entry with status 200 and a nil error, reads no file, calls no renderer
and leaves `Items` unchanged.  Consequently a second `Get` of the same path
right after a successful one, over the same file system, returns the identical
Document without reading or rendering, and leaves `Items` unchanged. -/
theorem Get_cache_hit :
    (∀ (render : String → String) (fs : FileSystem) (Items : ItemsMap) (md : String)
        (s : Int) (v : post),
        isRegular fs md s → Items.lookup md = some v → v.ModTime = s →
        ∃ r, Get render fs Items md = some r ∧ r.post = v ∧ r.status = 200 ∧
          r.err = none ∧ ioEvents r.trace = [] ∧ r.Items = Items) ∧
    (∀ (render : String → String) (fs : FileSystem) (Items : ItemsMap) (md : String)
        (r1 : GetResult),
        Get render fs Items md = some r1 → r1.err = none →
        ∃ r2, Get render fs r1.Items md = some r2 ∧ r2.post = r1.post ∧ r2.status = 200 ∧
          r2.err = none ∧ ioEvents r2.trace = [] ∧ r2.Items = r1.Items) := by
  have hit : ∀ (render : String → String) (fs : FileSystem) (Items : ItemsMap) (md : String)
      (s : Int) (v : post),
      isRegular fs md s → Items.lookup md = some v → v.ModTime = s →
      ∃ r, Get render fs Items md = some r ∧ r.post = v ∧ r.status = 200 ∧
        r.err = none ∧ ioEvents r.trace = [] ∧ r.Items = Items := by
    intro render fs Items md s v hreg hv hs
    exact ⟨_, Get_hit_eq render fs Items md s v hreg hv hs, rfl, rfl, rfl, rfl, rfl⟩
  refine ⟨hit, ?_⟩
  intro render fs Items md r1 h1 herr
  -- a successful call means that the path is a regular file
  have hreg : ∃ s, isRegular fs md s := by
    by_contra hno
    obtain ⟨r, hr, he, _⟩ :=
      Get_of_not_regular render fs Items md (fun s hs => hno ⟨s, hs⟩)
    rw [h1] at hr
    cases hr
    exact he herr
  obtain ⟨s, hreg⟩ := hreg
  by_cases hneed : needsRender Items md s
  · have h := Get_render_eq render fs Items md s hreg hneed
    rw [h1] at h
    cases h
    obtain ⟨r2, hr2, hp, hrest⟩ := hit render fs
      (Items.insert md (documentOf render (fs.ReadFile md).1 s)) md s
      (documentOf render (fs.ReadFile md).1 s) hreg (AList.lookup_insert _) rfl
    exact ⟨r2, hr2, hp, hrest⟩
  · -- the first call was itself a hit
    cases hl : Items.lookup md with
    | none => exact absurd (Or.inl hl) hneed
    | some v =>
      have hs : v.ModTime = s := by
        by_contra hne
        exact hneed (Or.inr ⟨v, hl, hne⟩)
      have h := Get_hit_eq render fs Items md s v hreg hl hs
      rw [h1] at h
      cases h
      exact hit render fs Items md s v hreg hl hs

/-- C3 at the example file system: a hit on a cached `posts/p1.md` with stamp
42, and a second `Get` after a first one on the empty cache. -/
theorem Get_cache_hit_witness :
    (∃ r, Get demoRender demoFS
          (newPostArray.insert "posts/p1.md" { Title := "t", Body := "b", ModTime := 42 })
          "posts/p1.md" = some r ∧
        r.post = { Title := "t", Body := "b", ModTime := 42 } ∧ r.status = 200 ∧
        r.err = none ∧ ioEvents r.trace = [] ∧
        r.Items = newPostArray.insert "posts/p1.md" { Title := "t", Body := "b", ModTime := 42 }) ∧
    (∃ r1 r2, Get demoRender demoFS newPostArray "posts/p1.md" = some r1 ∧
        Get demoRender demoFS r1.Items "posts/p1.md" = some r2 ∧ r2.post = r1.post ∧
        r2.status = 200 ∧ r2.err = none ∧ ioEvents r2.trace = [] ∧ r2.Items = r1.Items) :=
  ⟨Get_cache_hit.1 demoRender demoFS _ "posts/p1.md" 42 _ rfl (AList.lookup_insert _) rfl,
   ⟨_, (Get_cache_hit.2 demoRender demoFS newPostArray "posts/p1.md" _
          (Get_render_eq demoRender demoFS newPostArray "posts/p1.md" 42 rfl (Or.inl rfl))
          rfl).choose,
      Get_render_eq demoRender demoFS newPostArray "posts/p1.md" 42 rfl (Or.inl rfl),
      (Get_cache_hit.2 demoRender demoFS newPostArray "posts/p1.md" _
          (Get_render_eq demoRender demoFS newPostArray "posts/p1.md" 42 rfl (Or.inl rfl))
          rfl).choose_spec⟩⟩

/-- C4: for a path that exists, is not a directory and is readable with
content `c` and stamp `s`, when `Items` has no entry for the path or an entry
with another `ModTime`, `Get` returns status 200, a nil error and the Document
(title of `c`, render (body of `c`), `s`); afterwards `Items` maps the path to
exactly the returned Document, every other key is as before, the path has
exactly one entry, and the number of entries is the old one when the path had
an entry (overwritten) and one more when it had none. -/
theorem Get_render_on_miss_or_stale (render : String → String) (fs : FileSystem)
    (Items : ItemsMap) (md c : String) (s : Int)
    (hreg : isRegular fs md s) (hread : fs.ReadFile md = (c, none))
    (hneed : needsRender Items md s) :
    ∃ r, Get render fs Items md = some r ∧ r.status = 200 ∧ r.err = none ∧
      r.post = documentOf render c s ∧
      r.Items.lookup md = some r.post ∧
      (∀ k, k ≠ md → r.Items.lookup k = Items.lookup k) ∧
      r.Items.keys.count md = 1 ∧
      r.Items.entries.length ≤ Items.entries.length + 1 ∧
      (md ∈ Items → r.Items.entries.length = Items.entries.length) ∧
      (md ∉ Items → r.Items.entries.length = Items.entries.length + 1) := by
  have h := Get_render_eq render fs Items md s hreg hneed
  rw [hread] at h
  have hlen : ∀ t : ItemsMap, t.entries.length = t.keys.length := by
    intro t
    simp [AList.keys, List.keys]
  refine ⟨_, h, rfl, rfl, rfl, AList.lookup_insert _, ?_, ?_, ?_, ?_, ?_⟩
  · intro k hk
    exact AList.lookup_insert_ne hk
  · exact List.count_eq_one_of_mem (AList.keys_nodup _)
      (AList.mem_keys.1 ((AList.mem_insert _).2 (Or.inl rfl)))
  · show (AList.insert md _ Items).entries.length ≤ _
    rw [hlen, hlen, AList.keys_insert, List.length_cons]
    exact Nat.succ_le_succ (List.length_erase_le _ _)
  · intro hmem
    show (AList.insert md _ Items).entries.length = _
    rw [hlen, hlen, AList.keys_insert, List.length_cons,
      List.length_erase_of_mem (AList.mem_keys.1 hmem)]
    have : 0 < Items.keys.length := List.length_pos_of_mem (AList.mem_keys.1 hmem)
    omega
  · intro hmem
    show (AList.insert md _ Items).entries.length = _
    rw [AList.insert_entries_of_neg hmem, List.length_cons]

/-- C4 at the example file system: `posts/p1.md` on the empty cache. -/
theorem Get_render_on_miss_or_stale_witness :
    ∃ r, Get demoRender demoFS newPostArray "posts/p1.md" = some r ∧ r.status = 200 ∧
      r.err = none ∧
      r.post = documentOf demoRender "Hello\nWorld\nFoo" 42 ∧
      r.Items.lookup "posts/p1.md" = some r.post ∧
      (∀ k, k ≠ "posts/p1.md" → r.Items.lookup k = AList.lookup k newPostArray) ∧
      r.Items.keys.count "posts/p1.md" = 1 ∧
      r.Items.entries.length ≤ newPostArray.entries.length + 1 ∧
      ("posts/p1.md" ∈ newPostArray → r.Items.entries.length = newPostArray.entries.length) ∧
      ("posts/p1.md" ∉ newPostArray →
        r.Items.entries.length = newPostArray.entries.length + 1) :=
  Get_render_on_miss_or_stale demoRender demoFS newPostArray "posts/p1.md"
    "Hello\nWorld\nFoo" 42 rfl rfl (Or.inl rfl)

/-- C5: for every file content `c` rendered by `Get`, the Document's title is
the part of `c` before its first `"\n"` and contains no `"\n"`, the text handed
to the renderer is exactly the part of `c` after that first `"\n"` and the body
is its rendering; when `c` has no `"\n"` the title is all of `c` and the
renderer gets the empty string; when `c` has a `"\n"`, title, `"\n"` and raw
body concatenate to `c`.  For `c = "Hello\nWorld\nFoo"` the title is `"Hello"`
and the body is the rendering of `"World\nFoo"`. -/
theorem Get_title_body_split (render : String → String) (fs : FileSystem)
    (Items : ItemsMap) (md c : String) (s : Int)
    (hreg : isRegular fs md s) (hneed : needsRender Items md s)
    (hc : (fs.ReadFile md).1 = c) :
    ∃ r, Get render fs Items md = some r ∧
      r.post.Title = titleOf c ∧ '\n' ∉ r.post.Title.data ∧
      renderInputs r.trace = [rawBodyOf c] ∧ r.post.Body = render (rawBodyOf c) ∧
      ('\n' ∉ c.data → r.post.Title = c ∧ renderInputs r.trace = [""]) ∧
      ('\n' ∈ c.data → r.post.Title ++ "\n" ++ rawBodyOf c = c) ∧
      (c = "Hello\nWorld\nFoo" →
        r.post.Title = "Hello" ∧ renderInputs r.trace = ["World\nFoo"] ∧
        r.post.Body = render "World\nFoo") := by
  have h := Get_render_eq render fs Items md s hreg hneed
  rw [hc] at h
  refine ⟨_, h, rfl, titleOf_no_newline c, rfl, rfl, ?_, ?_, ?_⟩
  · intro hno
    obtain ⟨h1, h2⟩ := title_body_of_no_newline c hno
    exact ⟨h1, by simp only [renderInputs, List.filterMap, h2]⟩
  · intro hyes
    exact title_body_of_newline c hyes
  · intro he
    subst he
    have ht : titleOf "Hello\nWorld\nFoo" = "Hello" := by decide
    have hb : rawBodyOf "Hello\nWorld\nFoo" = "World\nFoo" := by decide
    refine ⟨ht, ?_, ?_⟩
    · show [rawBodyOf "Hello\nWorld\nFoo"] = _
      rw [hb]
    · show render (rawBodyOf "Hello\nWorld\nFoo") = _
      rw [hb]

/-- C5 at the example file system, whose `posts/p1.md` holds
`"Hello\nWorld\nFoo"`. -/
theorem Get_title_body_split_witness :
    ∃ r, Get demoRender demoFS newPostArray "posts/p1.md" = some r ∧
      r.post.Title = "Hello" ∧ renderInputs r.trace = ["World\nFoo"] ∧
      r.post.Body = demoRender "World\nFoo" :=
  (Get_title_body_split demoRender demoFS newPostArray "posts/p1.md" "Hello\nWorld\nFoo" 42
      rfl (Or.inl rfl) rfl).elim
    (fun r hr => ⟨r, hr.1, hr.2.2.2.2.2.2.2 rfl⟩)

/-- C6: a call of `Get` on a path that does not exist or is a directory leaves
`Items` unchanged; and starting from the empty cache of `newPostArray`, after
any sequence of `Get` calls over an unchanging file system, every key of
`Items` is a path that exists and is not a directory. -/
theorem Items_keys_exist_and_are_files :
    (∀ (render : String → String) (fs : FileSystem) (Items : ItemsMap) (md : String),
        notExists fs md ∨ isDirectory fs md →
        ∃ r, Get render fs Items md = some r ∧ r.Items = Items) ∧
    (∀ (render : String → String) (fs : FileSystem) (paths : List String),
        ∃ Items1, runGets render fs newPostArray paths = some Items1 ∧
          ∀ k ∈ Items1.keys, ∃ s, isRegular fs k s) := by
  constructor
  · intro render fs Items md h
    have hnot : ∀ s, ¬ isRegular fs md s := by
      intro s hs
      unfold isRegular at hs
      rcases h with ⟨err, he, _⟩ | ⟨info, hi, hd⟩
      · rw [he] at hs; cases hs
      · rw [hi] at hs
        cases hs
        cases hd
    obtain ⟨r, hr, _, hi⟩ := Get_of_not_regular render fs Items md hnot
    exact ⟨r, hr, hi⟩
  · intro render fs paths
    exact runGets_invariant render fs paths newPostArray (by intro k hk; cases hk)

/-- C6 at the example file system: the missing `posts/nope.md` and the
directory `posts` leave the empty cache empty. -/
theorem Items_keys_exist_and_are_files_witness :
    (∃ r, Get demoRender demoFS newPostArray "posts/nope.md" = some r ∧
        r.Items = newPostArray) ∧
    (∃ r, Get demoRender demoFS newPostArray "posts" = some r ∧ r.Items = newPostArray) :=
  ⟨Items_keys_exist_and_are_files.1 demoRender demoFS newPostArray "posts/nope.md"
      (Or.inl ⟨_, rfl, rfl⟩),
   Items_keys_exist_and_are_files.1 demoRender demoFS newPostArray "posts"
      (Or.inr ⟨_, rfl, rfl⟩)⟩

/-- C7 (the code at the failing input): on the uncached regular file
`posts/p1.md`, `Get` writes `Items` exactly once, and at that write it holds
the shared lock taken by `RLock`; the exclusive `Lock` is never taken. -/
theorem Get_writes_under_shared_lock (render : String → String) :
    ∃ r, Get render demoFS newPostArray "posts/p1.md" = some r ∧
      writeModes .unlocked r.trace = [.shared] ∧ Event.Lock ∉ r.trace := by
  refine ⟨_, Get_render_eq render demoFS newPostArray "posts/p1.md" 42 rfl (Or.inl rfl), ?_, ?_⟩
  · rfl
  · simp

/-- On the empty page the path handed to `posts.Get` is `"posts/index.md"`,
and on every page whose `"/"`-separated elements are all non-empty and none of
which is `"."` or `".."` (such a page is non-empty) it is
`"posts/" ++ page ++ ".md"`. -/
theorem postMD_resolution (page : String) :
    postHandler.postMD "" = some "posts/index.md" ∧
    (cleanPage page → page ≠ "" ∧ postHandler.postMD page = some ("posts/" ++ page ++ ".md")) := by
  refine ⟨by decide, fun h => ⟨?_, postMD_of_cleanPage page h⟩⟩
  intro he
  subst he
  exact (h [] (by decide)).1 rfl

/-- The resolution at the pages `"p1"` and `"a/b"`. -/
theorem postMD_resolution_examples :
    cleanPage "p1" ∧ postHandler.postMD "p1" = some "posts/p1.md" ∧
    cleanPage "a/b" ∧ postHandler.postMD "a/b" = some "posts/a/b.md" :=
  ⟨by unfold cleanPage; decide,
   ((postMD_resolution "p1").2 (by unfold cleanPage; decide)).2,
   by unfold cleanPage; decide,
   ((postMD_resolution "a/b").2 (by unfold cleanPage; decide)).2⟩

/-- C8 (the code at the failing input): for the empty page and for `"p1"` the
path handed to `posts.Get` is `"posts/index.md"` and `"posts/p1.md"`, but for
the non-empty page `"../secret"` it is `"secret.md"` and for `".."` it is
`"..md"`: `path.Join("posts", page)` resolves the `..` element, so these paths
are not `"posts/" ++ page ++ ".md"` and do not lie under `posts/`. -/
theorem postMD_dotdot_leaves_posts :
    postHandler.postMD "" = some "posts/index.md" ∧
    postHandler.postMD "p1" = some "posts/p1.md" ∧
    postHandler.postMD "../secret" = some "secret.md" ∧
    postHandler.postMD "../secret" ≠ some ("posts/" ++ "../secret" ++ ".md") ∧
    List.isPrefixOf "posts/".data "secret.md".data = false ∧
    postHandler.postMD ".." = some "..md" ∧
    postHandler.postMD ".." ≠ some ("posts/" ++ ".." ++ ".md") ∧
    List.isPrefixOf "posts/".data "..md".data = false := by
  decide

/-- C9: `noDirListing(h)` calls `http.NotFound` (status 404) and not `h` when
the request's URL path is empty or ends in `"/"`, and only then; otherwise it
calls `h` once with the same response writer and request and does nothing
else. -/
theorem noDirListing_spec {W : Type} (NotFound h : Handler W) (w : W) (r : Request) :
    (isDirURL r.URLPath →
      (noDirListing NotFound h w r).w = NotFound w r ∧
      (noDirListing NotFound h w r).calls = [.NotFound w r]) ∧
    (¬ isDirURL r.URLPath →
      (noDirListing NotFound h w r).w = h w r ∧
      (noDirListing NotFound h w r).calls = [.ServeHTTP w r]) ∧
    ((noDirListing NotFound h w r).calls = [.NotFound w r] ↔ isDirURL r.URLPath) := by
  have hcond : (strings.HasSuffix r.URLPath "/" || r.URLPath == "") = true ↔
      isDirURL r.URLPath := by
    unfold isDirURL
    rw [Bool.or_eq_true, HasSuffix_slash, beq_iff_eq]
    exact Or.comm
  by_cases hd : isDirURL r.URLPath
  · have hc := hcond.2 hd
    refine ⟨fun _ => ?_, fun hn => absurd hd hn, ?_⟩
    · unfold noDirListing
      rw [if_pos hc]
      exact ⟨rfl, rfl⟩
    · unfold noDirListing
      rw [if_pos hc]
      exact ⟨fun _ => hd, fun _ => rfl⟩
  · have hc : ¬ (strings.HasSuffix r.URLPath "/" || r.URLPath == "") = true :=
      fun h => hd (hcond.1 h)
    refine ⟨fun h => absurd h hd, fun _ => ?_, ?_⟩
    · unfold noDirListing
      rw [if_neg hc]
      exact ⟨rfl, rfl⟩
    · unfold noDirListing
      rw [if_neg hc]
      constructor
      · intro h
        simp at h
      · intro h
        exact absurd h hd

/-- C9 at the requests `GET /static/css/` (a directory URL) and
`GET /static/css/site.css`, with response writers that record what was
written. -/
theorem noDirListing_spec_witness :
    (noDirListing (fun w _ => w ++ ["404"]) (fun w r => w ++ [r.URLPath]) []
        { Method := "GET", URLPath := "css/", RawQuery := "" }).w = ["404"] ∧
    (noDirListing (fun w _ => w ++ ["404"]) (fun w r => w ++ [r.URLPath]) []
        { Method := "GET", URLPath := "css/site.css", RawQuery := "" }).w
      = ["css/site.css"] :=
  ⟨((noDirListing_spec (fun w _ => w ++ ["404"]) (fun w r => w ++ [r.URLPath]) []
        { Method := "GET", URLPath := "css/", RawQuery := "" }).1
        (Or.inr ⟨"css", by decide⟩)).1,
   ((noDirListing_spec (fun w _ => w ++ ["404"]) (fun w r => w ++ [r.URLPath]) []
        { Method := "GET", URLPath := "css/site.css", RawQuery := "" }).2.1
        (by
          rintro (h | ⟨pre, h⟩)
          · exact absurd h (by decide)
          · have := congrArg (fun s : String => s.data.getLast?) h
            simp at this)).1⟩

/-- C10: `strings.Split(content, "\n")` yields at least one element for every
content, so `lines[0]` and `lines[1:]` are defined; `Get` returns for every
input (no index-out-of-range panic); and when the render branch gets the empty
content, also as the data of a failed read, the result is the Document with the
empty title and the rendering of the empty string. -/
theorem Get_render_never_panics :
    (∀ c : String, 1 ≤ (strings.Split c).length ∧ ((strings.Split c)[0]?).isSome = true ∧
        (sliceFrom1 (strings.Split c)).isSome = true) ∧
    (∀ (render : String → String) (fs : FileSystem) (Items : ItemsMap) (md : String),
        (Get render fs Items md).isSome = true) ∧
    (∀ (render : String → String) (fs : FileSystem) (Items : ItemsMap) (md : String) (s : Int),
        isRegular fs md s → needsRender Items md s → (fs.ReadFile md).1 = "" →
        ∃ r, Get render fs Items md = some r ∧ r.status = 200 ∧
          r.post = { Title := "", Body := render "", ModTime := s }) := by
  refine ⟨?_, Get_isSome, ?_⟩
  · intro c
    refine ⟨?_, by rw [Split_head]; rfl, by rw [Split_slice]; rfl⟩
    have := Split_slice c
    unfold sliceFrom1 at this
    by_contra hlt
    rw [if_neg hlt] at this
    cases this
  · intro render fs Items md s hreg hneed hc
    have h := Get_render_eq render fs Items md s hreg hneed
    rw [hc] at h
    exact ⟨_, h, rfl, rfl⟩

/-- C10 at the example file system: `posts/locked.md`, whose read fails with
empty data. -/
theorem Get_render_never_panics_witness :
    ∃ r, Get demoRender demoFS newPostArray "posts/locked.md" = some r ∧ r.status = 200 ∧
      r.post = { Title := "", Body := demoRender "", ModTime := 7 } :=
  Get_render_never_panics.2.2 demoRender demoFS newPostArray "posts/locked.md" 7
    rfl (Or.inl rfl) rfl

end Mdserver
